import Mathlib

/-
Verification of the LUnpack extraction pipeline (src/src/main.rs), as a
shallow embedding in Lean 4.  Pure control flow and data flow of the
program are translated directly; external collaborators (the filesystem,
the assembly_pack codecs, the globset matcher, the CRC function) are
modelled as explicit environment records of fallible operations, so that
every logged message, stdout line, filesystem effect and early return of
the source is visible in the result of the corresponding Lean function.
-/

namespace LUnpack

/-- Kind of an I/O error, distinguishing the file-not-found sub-kind from
other kinds (mirrors std::io::ErrorKind at the granularity the program
observes). -/
inductive IOErrorKind
  | notFound
  | permissionDenied
  | other
  deriving DecidableEq

/-- An I/O error as observed by the program: a kind plus a display
message. -/
structure IOError where
  kind : IOErrorKind
  msg : String
  deriving DecidableEq

/-- One record of the pack-archive entry directory, as used by
un_pack_file: the crc key used for binary search and the is_compressed
flag byte (PKEntry in assembly_pack). Location data is irrelevant to the
control flow and is abstracted away. -/
structure PKEntry where
  crc : Nat
  is_compressed : Nat
  deriving DecidableEq

/-- The pack file trailer, carrying the base address of the entry list
(field file_list_base_addr read by un_pack_file). -/
structure Trailer where
  file_list_base_addr : Nat
  deriving DecidableEq

/-- Severity levels of the log crate as used by the program. -/
inductive Level
  | debug
  | info
  | warn
  | error
  deriving DecidableEq

/-- Every log line the program can emit, one constructor per log macro
invocation in main.rs, carrying exactly the data interpolated there. -/
inductive LogEvent
  | warnOpenFailed (shortKey : String)
  | errorMagic (shortKey : String) (msg : String)
  | debugCompressed (path : String)
  | warnNotFound (path : String) (shortKey : String)
  | errorWriteFailed (dest : String) (err : IOError)
  | infoProgress (i : Nat) (total : Nat) (shortKey : String)
  | errorUnpackFailed (key : String) (err : IOError)
  | errorInvalidGlob (line : String) (num : Nat)
  deriving DecidableEq

/-- Severity of each log line, matching the macro (log::warn!, log::error!,
log::debug!, log::info!) used at the corresponding source line. -/
def LogEvent.level : LogEvent → Level
  | .warnOpenFailed _ => .warn
  | .errorMagic _ _ => .error
  | .debugCompressed _ => .debug
  | .warnNotFound _ _ => .warn
  | .errorWriteFailed _ _ => .error
  | .infoProgress _ _ _ => .info
  | .errorUnpackFailed _ _ => .error
  | .errorInvalidGlob _ _ => .error

/-- The archive key displayed by a log line, when the line identifies an
archive: the four diagnostics of un_pack_file carry the shortened key. -/
def archKeyOf : LogEvent → Option String
  | .warnOpenFailed s => some s
  | .errorMagic s _ => some s
  | .warnNotFound _ s => some s
  | .infoProgress _ _ s => some s
  | _ => none

/-- Filesystem mutation performed by the extractor: directory creation,
destination file creation, and the chunked copy into it. -/
inductive FsEffect
  | createDirAll (path : String)
  | createFile (path : String)
  | writeFile (path : String)
  deriving DecidableEq

/-- Observable result of running a piece of the pipeline: log lines,
stdout lines (dry-run println!), filesystem effects, and the Err value of
the surrounding function if it returned early with one. -/
structure Output where
  logs : List LogEvent
  stdout : List String
  fx : List FsEffect
  err : Option IOError
  deriving DecidableEq

/-- The empty output of a completed region of code. -/
def Output.empty : Output := ⟨[], [], [], none⟩

/-- Output of a region that immediately propagates an error. -/
def Output.fail (e : IOError) : Output := ⟨[], [], [], some e⟩

/-- Sequencing of two code regions: if the first propagated an error the
second never runs (this is the question-mark operator of the source). -/
def Output.seq (a b : Output) : Output :=
  match a.err with
  | some _ => a
  | none => ⟨a.logs ++ b.logs, a.stdout ++ b.stdout, a.fx ++ b.fx, b.err⟩

/-- Sequencing of a list of code regions. -/
def Output.concat : List Output → Output
  | [] => Output.empty
  | o :: rest => Output.seq o (Output.concat rest)

/-- Path join, modelling PathBuf::join for the relative path arguments the
program uses (a separator between the two components). -/
def pathJoin (a b : String) : String :=
  if a.isEmpty then b else a ++ "/" ++ b

/-- Characters before the final separator of a path, none when the path
has no separator. -/
def parentChars : List Char → Option (List Char)
  | [] => none
  | c :: rest =>
    match parentChars rest with
    | some r => some (c :: r)
    | none => if c = '/' then some [] else none

/-- Model of Path::parent on our string paths: everything before the last
separator (the empty string for a single-component path), none for the
empty path. -/
def parentOf (p : String) : Option String :=
  if p.isEmpty then none
  else some (String.mk ((parentChars p.data).getD []))

/-- Whether the first list is a prefix of the second, character by
character. -/
def charsPfx : List Char → List Char → Bool
  | [], _ => true
  | _ :: _, [] => false
  | a :: as, b :: bs => if a = b then charsPfx as bs else false

/-- Model of str::strip_prefix: some remainder when the string starts with
the pattern, none otherwise. -/
def rustStripPfx (pat s : String) : Option String :=
  if charsPfx pat.data s.data then some (s.drop pat.length) else none

/-- The literal removed from archive keys for display purposes. -/
def packKeyPfx : String := "client\\res\\pack\\"

/-- The shortened display key of un_pack_file:
pk_key.strip_prefix("client\\res\\pack\\").unwrap_or(pk_key). -/
def shortKeyFn (key : String) : String :=
  (rustStripPfx packKeyPfx key).getD key

/-- Crc of the entry at a position of the entry directory (0 when out of
range; the algorithm below only reads in-range positions). -/
def crcAt (xs : List PKEntry) (i : Nat) : Nat :=
  (xs.getD i ⟨0, 0⟩).crc

/-- Core loop of slice::binary_search_by_key as the Rust standard library
implements it: halve the window until it is empty, answering ok at an
equal key and error with the insertion point otherwise.  The fuel argument
only bounds the iteration count; the top-level wrapper passes enough fuel
that it never runs out (the window shrinks by at least one element per
step). -/
def bsGo (xs : List PKEntry) (key : Nat) : Nat → Nat → Nat → Except Nat Nat
  | 0, left, _ => .error left
  | fuel + 1, left, right =>
    if left < right then
      let mid := left + (right - left) / 2
      let c := crcAt xs mid
      if c < key then bsGo xs key fuel (mid + 1) right
      else if key < c then bsGo xs key fuel left mid
      else .ok mid
    else .error left

/-- entries.binary_search_by_key(&crc, |node| node.crc) of the source. -/
def rustBinSearch (xs : List PKEntry) (key : Nat) : Except Nat Nat :=
  bsGo xs key (xs.length + 1) 0 xs.length

/-- The entry directory sorted ascending by crc (the invariant the archive
format guarantees, spec section 3). -/
def sortedCrc (xs : List PKEntry) : Prop :=
  List.Pairwise (fun a b => a.crc ≤ b.crc) xs

/-- One extraction request as pushed by main:
(crc, file, data.filesize, data.hash).  The MD5 hash is opaque to the
program and modelled as a number. -/
structure Req where
  crc : Nat
  path : String
  size : Nat
  hash : Nat
  deriving DecidableEq

/-- The Task structure of the source: batch ordinal, batch count, options,
archive key, resolved archive file path and the request list. -/
structure Task where
  i : Nat
  total : Nat
  dry_run : Bool
  output : String
  pk_key : String
  pk_file : String
  files : List Req
  deriving DecidableEq

/-- External world of one archive batch: each field is one fallible
operation un_pack_file performs against the filesystem or the
assembly_pack reader, in source order. -/
structure PackEnv where
  openArchive : Except IOError Unit
  checkMagic : Except String Unit
  getHeader : Except IOError Trailer
  getEntryList : Nat → Except IOError (List PKEntry)
  fileData : PKEntry → Except IOError Unit
  createDir : String → Except IOError Unit
  createFile : String → Except IOError Unit
  copyData : PKEntry → String → Except IOError Unit

/-- The create/copy phase of the found branch: File::create with an error
logged (and processing continuing) on failure, then the chunked copy loop
whose read and write errors propagate. -/
def writePhase (env : PackEnv) (entry : PKEntry) (dbg : List LogEvent)
    (out_file : String) (fx0 : List FsEffect) : Output :=
  match env.createFile out_file with
  | .error e => ⟨dbg ++ [.errorWriteFailed out_file e], [], fx0, none⟩
  | .ok _ =>
    match env.copyData entry out_file with
    | .error e => ⟨dbg, [], fx0 ++ [.createFile out_file], some e⟩
    | .ok _ => ⟨dbg, [], fx0 ++ [.createFile out_file, .writeFile out_file], none⟩

/-- Body of the per-request loop of un_pack_file: binary search, the
compressed-flag debug line, get_file_data, then either the dry-run
println! or directory creation, file creation and the copy. -/
def processOne (env : PackEnv) (t : Task) (entries : List PKEntry)
    (shortKey : String) (req : Req) : Output :=
  match rustBinSearch entries req.crc with
  | .error _ => ⟨[.warnNotFound req.path shortKey], [], [], none⟩
  | .ok index =>
    let entry := entries.getD index ⟨0, 0⟩
    let dbg : List LogEvent :=
      if entry.is_compressed &&& 1 > 0 then [.debugCompressed req.path] else []
    match env.fileData entry with
    | .error e => ⟨dbg, [], [], some e⟩
    | .ok _ =>
      let out_file := pathJoin t.output req.path
      if t.dry_run then ⟨dbg, [out_file], [], none⟩
      else
        match parentOf out_file with
        | some parent =>
          match env.createDir parent with
          | .error e => ⟨dbg, [], [], some e⟩
          | .ok _ => writePhase env entry dbg out_file [FsEffect.createDirAll parent]
        | none => writePhase env entry dbg out_file []

/-- The for loop over self.files of un_pack_file. -/
def runRequests (env : PackEnv) (t : Task) (entries : List PKEntry)
    (shortKey : String) : List Req → Output
  | [] => Output.empty
  | req :: rest =>
    Output.seq (processOne env t entries shortKey req)
      (runRequests env t entries shortKey rest)

/-- Task::un_pack_file: strip the display key, open the archive (warning
plus early Ok on failure), tolerate a magic-check failure with an error
log, read the trailer and the entry list (both propagate), run the request
loop, then log the progress summary. -/
def unPackFile (t : Task) (env : PackEnv) : Output :=
  let shortKey := shortKeyFn t.pk_key
  match env.openArchive with
  | .error _ => ⟨[.warnOpenFailed shortKey], [], [], none⟩
  | .ok _ =>
    let magicOut : Output :=
      match env.checkMagic with
      | .error m => ⟨[.errorMagic shortKey m], [], [], none⟩
      | .ok _ => Output.empty
    Output.seq magicOut
      (match env.getHeader with
       | .error e => Output.fail e
       | .ok trailer =>
         match env.getEntryList trailer.file_list_base_addr with
         | .error e => Output.fail e
         | .ok entries =>
           Output.seq (runRequests env t entries shortKey t.files)
             ⟨[.infoProgress t.i t.total shortKey], [], [], none⟩)

/-- Reference into the pack index for one crc: the ordinal of the owning
archive (offset data is irrelevant here). -/
structure FileRef where
  pack_file : Nat
  deriving DecidableEq

/-- Archive descriptor of the pack index: its path key. -/
structure ArchiveDesc where
  path : String
  deriving DecidableEq

/-- PackIndexFile as the planner consumes it: the crc-to-reference mapping
and the archive list indexed by ordinal. -/
structure PackIndexFile where
  files : List (Nat × FileRef)
  archives : List ArchiveDesc
  deriving DecidableEq

/-- Metadata of one manifest line: declared size and declared hash. -/
structure ManifestData where
  filesize : Nat
  hash : Nat
  deriving DecidableEq

/-- pack_index.files.get(&crc): lookup in the crc-keyed mapping. -/
def lookupCrc : List (Nat × FileRef) → Nat → Option FileRef
  | [], _ => none
  | (c, r) :: rest, key => if key = c then some r else lookupCrc rest key

/-- Lexicographic order on character lists, the order a BTreeMap keyed by
String uses (byte order of the UTF-8 encoding, which agrees with code
point order). -/
def charListLt : List Char → List Char → Bool
  | [], [] => false
  | [], _ :: _ => true
  | _ :: _, [] => false
  | a :: as, b :: bs =>
    if a < b then true else if b < a then false else charListLt as bs

/-- The BTreeMap key order on strings. -/
def strLt (a b : String) : Bool := charListLt a.data b.data

/-- tasks.entry(key).or_insert_with(Vec::new).push(req) on the ordered map
of batches, represented as a key-sorted association list: insert a new
singleton batch at its ordered position, or append to the existing batch. -/
def insertTask (k : String) (r : Req) :
    List (String × List Req) → List (String × List Req)
  | [] => [(k, [r])]
  | (k0, v0) :: rest =>
    if strLt k k0 then (k, [r]) :: (k0, v0) :: rest
    else if k = k0 then (k0, v0 ++ [r]) :: rest
    else (k0, v0) :: insertTask k r rest

/-- Lookup of a batch by archive key. -/
def lookupA : List (String × List Req) → String → Option (List Req)
  | [], _ => none
  | (k0, v0) :: rest, k => if k = k0 then some v0 else lookupA rest k

/-- The planning loop of main over the manifest entries: skip entries the
globset rejects, compute the crc of the path, look it up in the index,
silently skip absent crcs, and otherwise append the request to the batch
of the referenced archive.  Indexing pack_index.archives out of range
panics in the source; that is the none result here. -/
def planAux (c : String → Nat) (g : String → Bool) (idx : PackIndexFile) :
    List (String × ManifestData) → List (String × List Req) →
    Option (List (String × List Req))
  | [], acc => some acc
  | (file, data) :: rest, acc =>
    if g file then
      match lookupCrc idx.files (c file) with
      | some file_ref =>
        match idx.archives.get? file_ref.pack_file with
        | some archive =>
          planAux c g idx rest
            (insertTask archive.path ⟨c file, file, data.filesize, data.hash⟩ acc)
        | none => none
      | none => planAux c g idx rest acc
    else planAux c g idx rest acc

/-- The extraction plan: the batch map built from an empty map. -/
def plan (c : String → Nat) (g : String → Bool)
    (man : List (String × ManifestData)) (idx : PackIndexFile) :
    Option (List (String × List Req)) :=
  planAux c g idx man []

/-- The request main builds for an accepted manifest entry. -/
def toReq (c : String → Nat) (p : String) (d : ManifestData) : Req :=
  ⟨c p, p, d.filesize, d.hash⟩

/-- Whether one manifest entry contributes a request to the batch of
archive key k, and which request: accepted by the filter, crc present in
the index, and the referenced archive carrying exactly that key. -/
def acceptsTo (c : String → Nat) (g : String → Bool) (idx : PackIndexFile)
    (k : String) (pd : String × ManifestData) : Option Req :=
  if g pd.1 then
    match lookupCrc idx.files (c pd.1) with
    | some file_ref =>
      match idx.archives.get? file_ref.pack_file with
      | some archive => if archive.path = k then some (toReq c pd.1 pd.2) else none
      | none => none
    | none => none
  else none

/-- The requests of archive key k in manifest order. -/
def reqsFor (c : String → Nat) (g : String → Bool) (idx : PackIndexFile)
    (man : List (String × ManifestData)) (k : String) : List Req :=
  man.filterMap (acceptsTo c g idx k)

/-- A request resolves to an archive key when the index maps its crc to a
reference whose archive carries that key. -/
def resolves (idx : PackIndexFile) (r : Req) (k : String) : Prop :=
  ∃ file_ref archive, lookupCrc idx.files r.crc = some file_ref ∧
    idx.archives.get? file_ref.pack_file = some archive ∧ archive.path = k

/-- Batch keys in strictly ascending order: the representation invariant
of the BTreeMap of batches. -/
def sortedAcc (acc : List (String × List Req)) : Prop :=
  List.Pairwise (fun a b : String × List Req => strLt a.1 b.1 = true) acc

/-- key.replace(backslash, slash) joined onto the input root, as main
derives the archive file path from the archive key. -/
def archToPath (input key : String) : String :=
  pathJoin input (key.map (fun ch => if ch = '\\' then '/' else ch))

/-- Error logging and continuation of the driver loop: an Err from
un_pack_file is logged with the full archive key and swallowed. -/
def driverWrap (key : String) (o : Output) : Output :=
  match o.err with
  | some e => ⟨o.logs ++ [.errorUnpackFailed key e], o.stdout, o.fx, none⟩
  | none => o

/-- The driver loop of main: one Task per batch, sequentially, each
awaited to completion, with Err results logged and the loop continuing. -/
def runBatches (envOf : String → PackEnv) (input out : String) (dry : Bool)
    (total : Nat) : Nat → List (String × List Req) → Output
  | _, [] => Output.empty
  | i, (key, fs) :: rest =>
    Output.seq
      (driverWrap key
        (unPackFile ⟨i + 1, total, dry, out, key, archToPath input key, fs⟩
          (envOf key)))
      (runBatches envOf input out dry total (i + 1) rest)

/-- UnpackError of the source: the generic I/O variant, the
could-not-find variant carrying the path and the source error, and the
unknown variant. -/
inductive UnpackError
  | ioErr (e : IOError)
  | fileNotFound (path : String) (src : IOError)
  | unknown
  deriving DecidableEq

/-- The lines the Debug impl of UnpackError prints: the Display message
followed by the messages of the source chain. -/
def UnpackError.chain : UnpackError → List String
  | .ioErr e => ["generic I/O error", e.msg]
  | .fileNotFound p e => ["could not find " ++ p, e.msg]
  | .unknown => ["unknown error"]

/-- Outcome of a whole run: a fatal UnpackError returned from main, a
panic from an unwrap, or completion with the accumulated output. -/
inductive RunOutcome
  | fatal (e : UnpackError)
  | panicked (msg : String)
  | completed (o : Output)
  deriving DecidableEq

/-- The per-line activity test of the glob loop:
!line.is_empty() && !line.starts_with(hash), where starts_with on a
single character inspects the first character. -/
def globLineActive (l : String) : Bool :=
  !(l == "") && !(l.data.head? == some '#')

/-- The glob-file loop of main: skip empty lines and lines starting with
the comment marker, keep lines the glob compiler accepts, and log an
error with the enumerate index for lines it rejects. -/
def loadGlobsFrom (validGlob : String → Bool) :
    Nat → List String → List String × List LogEvent
  | _, [] => ([], [])
  | num, line :: rest =>
    let pr := loadGlobsFrom validGlob (num + 1) rest
    if globLineActive line then
      if validGlob line then (line :: pr.1, pr.2)
      else (pr.1, LogEvent.errorInvalidGlob line num :: pr.2)
    else pr

/-- External world of one whole run, one field per fallible startup step
of main plus the abstract crc function, glob compiler and matcher and the
per-archive environments. -/
structure MainEnv where
  input : String
  outputRoot : String
  dry_run : Bool
  globLines : Option (Except IOError (List String))
  validGlob : String → Bool
  matchPat : String → String → Bool
  trunkOpen : Except IOError Unit
  manifestLoad : Except String (List (String × ManifestData))
  indexLoad : Except String PackIndexFile
  crcFn : String → Nat
  envOf : String → PackEnv

/-- input.join("versions").join("trunk.txt"), the manifest path whose
display string the could-not-find error carries. -/
def trunkPathOf (m : MainEnv) : String :=
  pathJoin (pathJoin m.input "versions") "trunk.txt"

/-- main after the glob phase, given the compiled patterns and the glob
log lines: open the manifest (any open error becomes the could-not-find
variant), unwrap the manifest parse and the index parse (panicking on
failure), build the plan (panicking on an out-of-range archive ordinal)
and drive the batches. -/
def mainRun2 (m : MainEnv) (pl : List String × List LogEvent) : RunOutcome :=
  match m.trunkOpen with
  | .error e => .fatal (.fileNotFound (trunkPathOf m) e)
  | .ok _ =>
    match m.manifestLoad with
    | .error s => .panicked s
    | .ok manifest =>
      match m.indexLoad with
      | .error s => .panicked s
      | .ok idx =>
        match plan m.crcFn
            (fun path => pl.1.any (fun pat => m.matchPat pat path)) manifest idx with
        | none => .panicked "index out of range"
        | some tasks =>
          .completed (Output.seq ⟨pl.2, [], [], none⟩
            (runBatches m.envOf m.input m.outputRoot m.dry_run tasks.length 0 tasks))

/-- The whole run: read the glob file when one is supplied (its read error
propagates as the generic I/O variant), fall back to the match-everything
pattern otherwise, then the rest of main. -/
def mainRun (m : MainEnv) : RunOutcome :=
  match m.globLines with
  | some (.error e) => .fatal (.ioErr e)
  | some (.ok ls) => mainRun2 m (loadGlobsFrom m.validGlob 0 ls)
  | none => mainRun2 m (["**"], [])

/-! Concrete sample inputs used to exercise the definitions on closed
instances. -/

/-- A two-entry directory with crcs 5 and 7, sorted ascending. -/
def entriesTwo : List PKEntry := [⟨5, 0⟩, ⟨7, 0⟩]

/-- Environment whose every operation succeeds and whose entry directory
is entriesTwo. -/
def envAllOk : PackEnv :=
  ⟨.ok (), .ok (), .ok ⟨0⟩, fun _ => .ok entriesTwo, fun _ => .ok (),
    fun _ => .ok (), fun _ => .ok (), fun _ _ => .ok ()⟩

/-- Environment whose archive file does not open. -/
def envOpenFail : PackEnv :=
  { envAllOk with openArchive := .error ⟨.notFound, "no such file"⟩ }

/-- Environment whose payload stream fails to open for the entry with
crc 5. -/
def envStreamFail : PackEnv :=
  { envAllOk with
    fileData := fun e => if e.crc = 5 then .error ⟨.other, "stream"⟩ else .ok () }

/-- Environment whose directory creation fails. -/
def envDirFail : PackEnv :=
  { envAllOk with createDir := fun _ => .error ⟨.other, "dir"⟩ }

/-- Environment whose destination file creation fails. -/
def envCreateFail : PackEnv :=
  { envAllOk with createFile := fun _ => .error ⟨.other, "denied"⟩ }

/-- Request for the entry with crc 5. -/
def reqA : Req := ⟨5, "a", 1, 1⟩

/-- Request for the entry with crc 7. -/
def reqB : Req := ⟨7, "b", 1, 1⟩

/-- A dry-run task over both requests, keyed inside the pack prefix. -/
def taskDry : Task :=
  ⟨1, 1, true, "out", "client\\res\\pack\\x.pk", "in/client/res/pack/x.pk",
    [reqA, reqB]⟩

/-- A write-mode task over both requests. -/
def taskWet : Task := ⟨1, 1, false, "out", "x.pk", "in/x.pk", [reqA, reqB]⟩

/-- A task keyed inside the pack prefix, used with envOpenFail. -/
def taskOF : Task :=
  ⟨1, 1, false, "out", "client\\res\\pack\\x.pk", "in/client/res/pack/x.pk",
    [reqA]⟩

/-- Sample crc function: the length of the path string. -/
def cLen : String → Nat := fun s => s.length

/-- The filter that accepts everything. -/
def gAll : String → Bool := fun _ => true

/-- One-archive index: crc 3 is held by the only archive. -/
def idxW : PackIndexFile := ⟨[(3, ⟨0⟩)], [⟨"client\\res\\pack\\a.pk"⟩]⟩

/-- One-entry manifest whose path has length 3. -/
def manW : List (String × ManifestData) := [("abc", ⟨10, 7⟩)]

/-- The request the planner builds from manW under cLen. -/
def reqW : Req := ⟨3, "abc", 10, 7⟩

/-- The archive key of idxW. -/
def keyW : String := "client\\res\\pack\\a.pk"

/-- The plan over manW and idxW. -/
def planW : List (String × List Req) := [(keyW, [reqW])]

/-- Two-archive index whose archive list is not sorted by path. -/
def idxW2 : PackIndexFile := ⟨[(1, ⟨0⟩), (2, ⟨1⟩)], [⟨"b.pk"⟩, ⟨"a.pk"⟩]⟩

/-- Two-entry manifest matching idxW2 under cLen. -/
def manW2 : List (String × ManifestData) := [("x", ⟨1, 1⟩), ("yy", ⟨2, 2⟩)]

/-- The plan over manW2 and idxW2: keys come out sorted. -/
def planW2 : List (String × List Req) :=
  [("a.pk", [⟨2, "yy", 2, 2⟩]), ("b.pk", [⟨1, "x", 1, 1⟩])]

/-- A permission error, not a file-not-found error. -/
def permErr : IOError := ⟨.permissionDenied, "permission denied"⟩

/-- A run environment where every startup step succeeds trivially. -/
def menvBase : MainEnv :=
  ⟨"in", "out", false, none, fun _ => true, fun _ _ => true, .ok (), .ok [],
    .ok ⟨[], []⟩, cLen, fun _ => envAllOk⟩

/-- A run environment whose manifest file open fails with a permission
error. -/
def menvPerm : MainEnv := { menvBase with trunkOpen := .error permErr }

/-- A run environment whose index file is unparsable. -/
def menvBadIdx : MainEnv := { menvBase with indexLoad := .error "invalid PKI" }

/-- A run environment whose manifest is unparsable. -/
def menvBadMan : MainEnv :=
  { menvBase with manifestLoad := .error "bad manifest" }

/-! Helper lemmas about list access and the binary search loop. -/

theorem getD_eq_get : ∀ (xs : List PKEntry) (i : Nat) (h : i < xs.length) (d : PKEntry),
    xs.getD i d = xs.get ⟨i, h⟩
  | _ :: _, 0, _, _ => rfl
  | _ :: xs, i + 1, h, d => getD_eq_get xs i (Nat.lt_of_succ_lt_succ h) d

theorem getD_mem {xs : List PKEntry} {i : Nat} (h : i < xs.length) (d : PKEntry) :
    xs.getD i d ∈ xs := by
  rw [getD_eq_get xs i h d]
  exact List.get_mem xs i h

theorem crcAt_eq_get {xs : List PKEntry} {i : Nat} (h : i < xs.length) :
    crcAt xs i = (xs.get ⟨i, h⟩).crc := by
  unfold crcAt
  rw [getD_eq_get xs i h]

theorem crcAt_mono {xs : List PKEntry} (hs : sortedCrc xs) {i j : Nat}
    (hij : i ≤ j) (hj : j < xs.length) : crcAt xs i ≤ crcAt xs j := by
  rcases Nat.lt_or_ge i j with hlt | hge
  · have hi : i < xs.length := Nat.lt_trans hlt hj
    rw [crcAt_eq_get hi, crcAt_eq_get hj]
    exact (List.pairwise_iff_get.mp hs) ⟨i, hi⟩ ⟨j, hj⟩ hlt
  · have : i = j := Nat.le_antisymm hij hge
    subst this
    exact Nat.le_refl _

theorem crcAt_mem {xs : List PKEntry} {i : Nat} (h : i < xs.length) :
    crcAt xs i ∈ xs.map PKEntry.crc := by
  rw [crcAt_eq_get h]
  exact List.mem_map_of_mem PKEntry.crc (List.get_mem xs i h)

theorem bsGo_ok_sound {xs : List PKEntry} {key : Nat} :
    ∀ (fuel left right i : Nat), right ≤ xs.length →
      bsGo xs key fuel left right = .ok i → i < xs.length ∧ crcAt xs i = key := by
  intro fuel
  induction fuel with
  | zero => intro left right i _ h; simp [bsGo] at h
  | succ fuel ih =>
    intro left right i hr h
    rw [bsGo] at h
    by_cases hlr : left < right
    · simp only [if_pos hlr] at h
      set mid := left + (right - left) / 2 with hmid
      have hmr : mid < right := by
        have := Nat.div_lt_self (Nat.sub_pos_of_lt hlr) Nat.one_lt_two
        omega
      by_cases h1 : crcAt xs mid < key
      · simp only [if_pos h1] at h
        exact ih (mid + 1) right i hr h
      · simp only [if_neg h1] at h
        by_cases h2 : key < crcAt xs mid
        · simp only [if_pos h2] at h
          exact ih left mid i (Nat.le_trans (Nat.le_of_lt hmr) hr) h
        · simp only [if_neg h2] at h
          have : mid = i := by injection h
          subst this
          constructor
          · exact Nat.lt_of_lt_of_le hmr hr
          · omega
    · simp only [if_neg hlr] at h
      cases h

theorem bsGo_complete {xs : List PKEntry} {key : Nat} (hs : sortedCrc xs) :
    ∀ (fuel left right : Nat), right ≤ xs.length → right - left ≤ fuel →
      (∃ i, left ≤ i ∧ i < right ∧ crcAt xs i = key) →
      ∃ j, bsGo xs key fuel left right = .ok j := by
  intro fuel
  induction fuel with
  | zero =>
    intro left right hr hf hw
    obtain ⟨i, h1, h2, _⟩ := hw
    omega
  | succ fuel ih =>
    intro left right hr hf hw
    obtain ⟨i, hi1, hi2, hi3⟩ := hw
    have hlr : left < right := Nat.lt_of_le_of_lt hi1 hi2
    rw [bsGo]
    simp only [if_pos hlr]
    set mid := left + (right - left) / 2 with hmid
    have hmr : mid < right := by
      have := Nat.div_lt_self (Nat.sub_pos_of_lt hlr) Nat.one_lt_two
      omega
    by_cases h1 : crcAt xs mid < key
    · simp only [if_pos h1]
      have himid : mid < i := by
        by_contra hc
        have : crcAt xs i ≤ crcAt xs mid :=
          crcAt_mono hs (Nat.le_of_not_lt hc) (Nat.lt_of_lt_of_le hmr hr)
        omega
      exact ih (mid + 1) right hr (by omega) ⟨i, by omega, hi2, hi3⟩
    · simp only [if_neg h1]
      by_cases h2 : key < crcAt xs mid
      · simp only [if_pos h2]
        have himid : i < mid := by
          by_contra hc
          have : crcAt xs mid ≤ crcAt xs i :=
            crcAt_mono hs (Nat.le_of_not_lt hc) (Nat.lt_of_lt_of_le hi2 hr)
          omega
        exact ih left mid (Nat.le_trans (Nat.le_of_lt hmr) hr) (by omega)
          ⟨i, hi1, himid, hi3⟩
      · simp only [if_neg h2]
        exact ⟨mid, rfl⟩

theorem rustBinSearch_ok_sound {xs : List PKEntry} {key i : Nat}
    (h : rustBinSearch xs key = .ok i) : i < xs.length ∧ crcAt xs i = key :=
  bsGo_ok_sound (xs.length + 1) 0 xs.length i (Nat.le_refl _) h

theorem rustBinSearch_not_found {xs : List PKEntry} {key : Nat}
    (h : key ∉ xs.map PKEntry.crc) : ∃ p, rustBinSearch xs key = .error p := by
  cases hres : rustBinSearch xs key with
  | error p => exact ⟨p, rfl⟩
  | ok i =>
    obtain ⟨hlen, hcrc⟩ := rustBinSearch_ok_sound hres
    exact absurd (hcrc ▸ crcAt_mem hlen) h

theorem rustBinSearch_found {xs : List PKEntry} {key : Nat} (hs : sortedCrc xs)
    (h : key ∈ xs.map PKEntry.crc) :
    ∃ j, rustBinSearch xs key = .ok j ∧ crcAt xs j = key := by
  obtain ⟨e, he, hek⟩ := List.mem_map.mp h
  obtain ⟨⟨n, hn⟩, hget⟩ := List.mem_iff_get.mp he
  have hcn : crcAt xs n = key := by
    rw [crcAt_eq_get hn, hget, hek]
  obtain ⟨j, hj⟩ := bsGo_complete hs (xs.length + 1) 0 xs.length (Nat.le_refl _)
    (by omega) ⟨n, Nat.zero_le _, hn, hcn⟩
  exact ⟨j, hj, (rustBinSearch_ok_sound hj).2⟩

/-! Helper lemmas about the key order of the batch map. -/

theorem charEq_of_incomp {a b : Char} (h1 : ¬ a < b) (h2 : ¬ b < a) : a = b :=
  le_antisymm (not_lt.mp h2) (not_lt.mp h1)

theorem charListLt_irrefl : ∀ as, charListLt as as = false
  | [] => rfl
  | a :: as => by
    rw [charListLt, if_neg (lt_irrefl a), if_neg (lt_irrefl a)]
    exact charListLt_irrefl as

theorem charListLt_trans : ∀ (as bs cs : List Char), charListLt as bs = true →
    charListLt bs cs = true → charListLt as cs = true
  | [], [], _, h1, _ => by rw [charListLt] at h1; exact absurd h1 (by simp)
  | [], _ :: _, [], _, h2 => by rw [charListLt] at h2; exact absurd h2 (by simp)
  | [], _ :: _, _ :: _, _, _ => rfl
  | _ :: _, [], _, h1, _ => by rw [charListLt] at h1; exact absurd h1 (by simp)
  | _ :: _, _ :: _, [], _, h2 => by
    rw [charListLt] at h2; exact absurd h2 (by simp)
  | a :: as, b :: bs, c :: cs, h1, h2 => by
    rw [charListLt] at h1 h2 ⊢
    by_cases hab : a < b
    · by_cases hbc : b < c
      · rw [if_pos (lt_trans hab hbc)]
      · rw [if_neg hbc] at h2
        by_cases hcb : c < b
        · rw [if_pos hcb] at h2; exact absurd h2 (by simp)
        · rw [if_neg hcb] at h2
          have heq : b = c := charEq_of_incomp hbc hcb
          subst heq
          rw [if_pos hab]
    · rw [if_neg hab] at h1
      by_cases hba : b < a
      · rw [if_pos hba] at h1; exact absurd h1 (by simp)
      · rw [if_neg hba] at h1
        have heq : a = b := charEq_of_incomp hab hba
        subst heq
        by_cases hac : a < c
        · rw [if_pos hac]
        · rw [if_neg hac] at h2 ⊢
          by_cases hca : c < a
          · rw [if_pos hca] at h2; exact absurd h2 (by simp)
          · rw [if_neg hca] at h2 ⊢
            exact charListLt_trans as bs cs h1 h2

theorem charListLt_rev : ∀ (as bs : List Char), ¬ charListLt as bs = true →
    as ≠ bs → charListLt bs as = true
  | [], [] => fun _ hne => absurd rfl hne
  | [], _ :: _ => fun h _ => absurd rfl h
  | _ :: _, [] => fun _ _ => rfl
  | a :: as, b :: bs => fun h hne => by
    rw [charListLt] at h ⊢
    by_cases hab : a < b
    · rw [if_pos hab] at h; exact absurd rfl h
    · rw [if_neg hab] at h
      by_cases hba : b < a
      · rw [if_pos hba]
      · rw [if_neg hba] at h ⊢
        have heq : a = b := charEq_of_incomp hab hba
        subst heq
        rw [if_neg hab]
        have htail : as ≠ bs := fun he => hne (by rw [he])
        exact charListLt_rev as bs h htail

theorem strExt {a b : String} (h : a.data = b.data) : a = b := by
  cases a
  cases b
  exact congrArg String.mk h

theorem strLt_ne {a b : String} (h : strLt a b = true) : a ≠ b := by
  intro he
  subst he
  rw [strLt, charListLt_irrefl] at h
  exact absurd h (by simp)

theorem strLt_trans {a b c : String} (h1 : strLt a b = true)
    (h2 : strLt b c = true) : strLt a c = true :=
  charListLt_trans a.data b.data c.data h1 h2

theorem strLt_rev {a b : String} (h1 : ¬ strLt a b = true) (h2 : a ≠ b) :
    strLt b a = true :=
  charListLt_rev a.data b.data h1 (fun hd => h2 (strExt hd))

/-! Helper lemmas about the ordered batch map. -/

theorem lookupA_eq_none {acc : List (String × List Req)} {k : String}
    (h : ∀ kv ∈ acc, k ≠ kv.1) : lookupA acc k = none := by
  induction acc with
  | nil => rfl
  | cons kv rest ih =>
    obtain ⟨k0, v0⟩ := kv
    have hk : k ≠ k0 := h (k0, v0) (List.mem_cons_self _ _)
    simp only [lookupA, if_neg hk]
    exact ih (fun kv hm => h kv (List.mem_cons_of_mem _ hm))

theorem insertTask_mem {k : String} {r : Req} :
    ∀ {acc : List (String × List Req)} {kv : String × List Req},
      kv ∈ insertTask k r acc → kv.1 = k ∨ kv ∈ acc := by
  intro acc
  induction acc with
  | nil =>
    intro kv h
    simp only [insertTask, List.mem_singleton] at h
    subst h
    exact Or.inl rfl
  | cons hd rest ih =>
    obtain ⟨k0, v0⟩ := hd
    intro kv h
    simp only [insertTask] at h
    by_cases h1 : strLt k k0 = true
    · simp only [if_pos h1, List.mem_cons] at h
      rcases h with h | h | h
      · subst h; exact Or.inl rfl
      · subst h; exact Or.inr (List.mem_cons_self _ _)
      · exact Or.inr (List.mem_cons_of_mem _ h)
    · simp only [if_neg h1] at h
      by_cases h2 : k = k0
      · simp only [if_pos h2, List.mem_cons] at h
        rcases h with h | h
        · subst h; exact Or.inl h2.symm
        · exact Or.inr (List.mem_cons_of_mem _ h)
      · simp only [if_neg h2, List.mem_cons] at h
        rcases h with h | h
        · subst h; exact Or.inr (List.mem_cons_self _ _)
        · rcases ih h with h | h
          · exact Or.inl h
          · exact Or.inr (List.mem_cons_of_mem _ h)

theorem insertTask_sorted {k : String} {r : Req} :
    ∀ {acc : List (String × List Req)}, sortedAcc acc →
      sortedAcc (insertTask k r acc) := by
  intro acc
  induction acc with
  | nil =>
    intro _
    exact List.pairwise_singleton _ _
  | cons hd rest ih =>
    obtain ⟨k0, v0⟩ := hd
    intro hs
    simp only [sortedAcc] at hs ⊢
    rw [List.pairwise_cons] at hs
    obtain ⟨hhead, htail⟩ := hs
    simp only [insertTask]
    by_cases h1 : strLt k k0 = true
    · simp only [if_pos h1]
      rw [List.pairwise_cons]
      refine ⟨?_, ?_⟩
      · intro kv hm
        rcases List.mem_cons.mp hm with h | h
        · subst h; exact h1
        · exact strLt_trans h1 (hhead kv h)
      · rw [List.pairwise_cons]
        exact ⟨hhead, htail⟩
    · simp only [if_neg h1]
      by_cases h2 : k = k0
      · simp only [if_pos h2]
        rw [List.pairwise_cons]
        exact ⟨hhead, htail⟩
      · simp only [if_neg h2]
        rw [List.pairwise_cons]
        refine ⟨?_, ih htail⟩
        intro kv hm
        rcases insertTask_mem hm with h | h
        · rw [h]
          exact strLt_rev h1 h2
        · exact hhead kv h

theorem lookupA_insertTask_self {k : String} {r : Req} :
    ∀ {acc : List (String × List Req)}, sortedAcc acc →
      lookupA (insertTask k r acc) k = some ((lookupA acc k).getD [] ++ [r]) := by
  intro acc
  induction acc with
  | nil => simp [insertTask, lookupA]
  | cons hd rest ih =>
    obtain ⟨k0, v0⟩ := hd
    intro hs
    simp only [sortedAcc] at hs
    rw [List.pairwise_cons] at hs
    obtain ⟨hhead, htail⟩ := hs
    simp only [insertTask]
    by_cases h1 : strLt k k0 = true
    · simp only [if_pos h1]
      have hk0 : k ≠ k0 := strLt_ne h1
      have hnone : lookupA rest k = none := by
        apply lookupA_eq_none
        intro kv hm
        exact strLt_ne (strLt_trans h1 (hhead kv hm))
      simp [lookupA, hk0, hnone]
    · simp only [if_neg h1]
      by_cases h2 : k = k0
      · subst h2
        simp [lookupA]
      · simp only [if_neg h2]
        simp only [lookupA, if_neg h2]
        exact ih htail

theorem lookupA_insertTask_other {k k2 : String} {r : Req} (hne : k2 ≠ k) :
    ∀ {acc : List (String × List Req)},
      lookupA (insertTask k r acc) k2 = lookupA acc k2 := by
  intro acc
  induction acc with
  | nil => simp [insertTask, lookupA, hne]
  | cons hd rest ih =>
    obtain ⟨k0, v0⟩ := hd
    simp only [insertTask]
    by_cases h1 : strLt k k0 = true
    · simp only [if_pos h1]
      simp [lookupA, hne]
    · simp only [if_neg h1]
      by_cases h2 : k = k0
      · subst h2
        simp [lookupA, hne]
      · simp only [if_neg h2]
        by_cases h3 : k2 = k0
        · simp [lookupA, h3]
        · simp only [lookupA, if_neg h3]
          exact ih

theorem insertTask_good {Q : String → Req → Prop} {k : String} {r : Req}
    (hr : Q k r) :
    ∀ {acc : List (String × List Req)},
      (∀ kv ∈ acc, kv.2 ≠ [] ∧ ∀ x ∈ kv.2, Q kv.1 x) →
      ∀ kv ∈ insertTask k r acc, kv.2 ≠ [] ∧ ∀ x ∈ kv.2, Q kv.1 x := by
  intro acc
  induction acc with
  | nil =>
    intro _ kv hm
    simp only [insertTask, List.mem_singleton] at hm
    subst hm
    refine ⟨by simp, ?_⟩
    intro x hx
    rw [List.mem_singleton] at hx
    subst hx
    exact hr
  | cons hd rest ih =>
    obtain ⟨k0, v0⟩ := hd
    intro hacc kv hm
    have hhd := hacc (k0, v0) (List.mem_cons_self _ _)
    have hrest : ∀ kv ∈ rest, kv.2 ≠ [] ∧ ∀ x ∈ kv.2, Q kv.1 x :=
      fun kv hm => hacc kv (List.mem_cons_of_mem _ hm)
    simp only [insertTask] at hm
    by_cases h1 : strLt k k0 = true
    · simp only [if_pos h1, List.mem_cons] at hm
      rcases hm with h | h | h
      · subst h
        refine ⟨by simp, ?_⟩
        intro x hx
        rw [List.mem_singleton] at hx
        subst hx
        exact hr
      · subst h; exact hhd
      · exact hrest kv h
    · simp only [if_neg h1] at hm
      by_cases h2 : k = k0
      · simp only [if_pos h2, List.mem_cons] at hm
        rcases hm with h | h
        · subst h
          refine ⟨by simp, ?_⟩
          intro x hx
          rcases List.mem_append.mp hx with hx | hx
          · exact hhd.2 x hx
          · rw [List.mem_singleton] at hx
            subst hx
            rw [← h2]
            exact hr
        · exact hrest kv h
      · simp only [if_neg h2, List.mem_cons] at hm
        rcases hm with h | h
        · subst h; exact hhd
        · exact ih hrest kv h

/-! Helper lemmas about the planning loop. -/

theorem planAux_sorted {c : String → Nat} {g : String → Bool} {idx : PackIndexFile} :
    ∀ {man : List (String × ManifestData)} {acc P : List (String × List Req)},
      planAux c g idx man acc = some P → sortedAcc acc → sortedAcc P := by
  intro man
  induction man with
  | nil =>
    intro acc P h hs
    simp only [planAux] at h
    injection h with h
    subst h
    exact hs
  | cons pd rest ih =>
    obtain ⟨file, data⟩ := pd
    intro acc P h hs
    simp only [planAux] at h
    by_cases hg : g file
    · simp only [if_pos hg] at h
      cases hlc : lookupCrc idx.files (c file) with
      | none =>
        simp only [hlc] at h
        exact ih h hs
      | some file_ref =>
        simp only [hlc] at h
        cases harc : idx.archives.get? file_ref.pack_file with
        | none => simp only [harc] at h; exact Option.noConfusion h
        | some archive =>
          simp only [harc] at h
          exact ih h (insertTask_sorted hs)
    · simp only [if_neg hg] at h
      exact ih h hs

theorem planAux_good {c : String → Nat} {g : String → Bool} {idx : PackIndexFile} :
    ∀ {man : List (String × ManifestData)} {acc P : List (String × List Req)},
      planAux c g idx man acc = some P →
      (∀ kv ∈ acc, kv.2 ≠ [] ∧ ∀ x ∈ kv.2, resolves idx x kv.1) →
      ∀ kv ∈ P, kv.2 ≠ [] ∧ ∀ x ∈ kv.2, resolves idx x kv.1 := by
  intro man
  induction man with
  | nil =>
    intro acc P h hacc
    simp only [planAux] at h
    injection h with h
    subst h
    exact hacc
  | cons pd rest ih =>
    obtain ⟨file, data⟩ := pd
    intro acc P h hacc
    simp only [planAux] at h
    by_cases hg : g file
    · simp only [if_pos hg] at h
      cases hlc : lookupCrc idx.files (c file) with
      | none =>
        simp only [hlc] at h
        exact ih h hacc
      | some file_ref =>
        simp only [hlc] at h
        cases harc : idx.archives.get? file_ref.pack_file with
        | none => simp only [harc] at h; exact Option.noConfusion h
        | some archive =>
          simp only [harc] at h
          refine ih h (@insertTask_good (fun kk x => resolves idx x kk)
            archive.path ⟨c file, file, data.filesize, data.hash⟩
            ⟨file_ref, archive, hlc, harc, rfl⟩ acc hacc)
    · simp only [if_neg hg] at h
      exact ih h hacc

theorem planAux_lookupA {c : String → Nat} {g : String → Bool}
    {idx : PackIndexFile} {k : String} :
    ∀ {man : List (String × ManifestData)} {acc P : List (String × List Req)},
      sortedAcc acc → planAux c g idx man acc = some P →
      (lookupA P k).getD [] = (lookupA acc k).getD [] ++ reqsFor c g idx man k := by
  intro man
  induction man with
  | nil =>
    intro acc P _ h
    simp only [planAux] at h
    injection h with h
    subst h
    simp [reqsFor]
  | cons pd rest ih =>
    obtain ⟨file, data⟩ := pd
    intro acc P hs h
    simp only [planAux] at h
    have hfm : reqsFor c g idx ((file, data) :: rest) k =
        match acceptsTo c g idx k (file, data) with
        | some r => r :: reqsFor c g idx rest k
        | none => reqsFor c g idx rest k := by
      simp [reqsFor, List.filterMap_cons]
      cases acceptsTo c g idx k (file, data) <;> simp
    by_cases hg : g file
    · simp only [if_pos hg] at h
      cases hlc : lookupCrc idx.files (c file) with
      | none =>
        simp only [hlc] at h
        rw [hfm]
        have hacc : acceptsTo c g idx k (file, data) = none := by
          simp [acceptsTo, hg, hlc]
        rw [hacc]
        exact ih hs h
      | some file_ref =>
        simp only [hlc] at h
        cases harc : idx.archives.get? file_ref.pack_file with
        | none => simp only [harc] at h; exact Option.noConfusion h
        | some archive =>
          simp only [harc] at h
          rw [hfm]
          have hstep := ih (insertTask_sorted hs) h
          have harc2 : idx.archives[file_ref.pack_file]? = some archive := by
            rw [← List.get?_eq_getElem?]
            exact harc
          by_cases hk : archive.path = k
          · subst hk
            have hacc : acceptsTo c g idx archive.path (file, data) =
                some (toReq c file data) := by
              simp [acceptsTo, hg, hlc, harc2]
            rw [hacc]
            rw [hstep, lookupA_insertTask_self hs]
            simp [toReq, List.append_assoc]
          · have hacc : acceptsTo c g idx k (file, data) = none := by
              simp [acceptsTo, hg, hlc, harc2, hk]
            rw [hacc]
            rw [hstep, lookupA_insertTask_other (fun he => hk he.symm)]
    · simp only [if_neg hg] at h
      rw [hfm]
      have hacc : acceptsTo c g idx k (file, data) = none := by
        simp [acceptsTo, hg]
      rw [hacc]
      exact ih hs h

theorem planAux_crc_irrel {c c2 : String → Nat} {g : String → Bool}
    {idx : PackIndexFile} (hcc : ∀ p, g p = true → c2 p = c p) :
    ∀ (man : List (String × ManifestData)) (acc : List (String × List Req)),
      planAux c2 g idx man acc = planAux c g idx man acc := by
  intro man
  induction man with
  | nil => intro acc; rfl
  | cons pd rest ih =>
    obtain ⟨file, data⟩ := pd
    intro acc
    simp only [planAux]
    by_cases hg : g file
    · simp only [if_pos hg]
      rw [hcc file hg]
      cases hlc : lookupCrc idx.files (c file) with
      | none =>
        simp only [hlc]
        exact ih acc
      | some file_ref =>
        simp only [hlc]
        cases harc : idx.archives.get? file_ref.pack_file with
        | none => simp only [harc]
        | some archive =>
          simp only [harc]
          exact ih _
    · simp only [if_neg hg]
      exact ih acc

/-! Helper lemmas about output sequencing, the request loop and the
driver loop. -/

theorem seq_of_err_none {a b : Output} (h : a.err = none) :
    Output.seq a b = ⟨a.logs ++ b.logs, a.stdout ++ b.stdout, a.fx ++ b.fx, b.err⟩ := by
  rw [Output.seq, h]

theorem seq_of_err_some {a b : Output} {e : IOError} (h : a.err = some e) :
    Output.seq a b = a := by
  rw [Output.seq, h]

theorem seq_logs_sub {a b : Output} {e : LogEvent}
    (hm : e ∈ (Output.seq a b).logs) : e ∈ a.logs ∨ e ∈ b.logs := by
  rw [Output.seq] at hm
  cases h : a.err with
  | some e2 => rw [h] at hm; exact Or.inl hm
  | none =>
    rw [h] at hm
    exact List.mem_append.mp hm

theorem seq_fx_nil {a b : Output} (ha : a.fx = []) (hb : b.fx = []) :
    (Output.seq a b).fx = [] := by
  rw [Output.seq]
  cases a.err <;> simp [ha, hb]

theorem mem_dbg {p : String} {cond : Prop} [Decidable cond] {e : LogEvent}
    (hm : e ∈ (if cond then [LogEvent.debugCompressed p] else [])) :
    e = .debugCompressed p := by
  split at hm
  · exact List.mem_singleton.mp hm
  · cases hm

theorem processOne_fx_dry {env : PackEnv} {t : Task} {entries : List PKEntry}
    {sk : String} {req : Req} (hd : t.dry_run = true) :
    (processOne env t entries sk req).fx = [] := by
  cases hbs : rustBinSearch entries req.crc with
  | error p => simp [processOne, hbs]
  | ok i =>
    cases hfd : env.fileData (entries.getD i ⟨0, 0⟩) with
    | error e =>
      rw [List.getD_eq_getElem?_getD] at hfd
      simp [processOne, hbs, hfd, List.getD_eq_getElem?_getD]
    | ok u =>
      rw [List.getD_eq_getElem?_getD] at hfd
      simp [processOne, hbs, hfd, hd, List.getD_eq_getElem?_getD]

theorem runRequests_fx_dry {env : PackEnv} {t : Task} {entries : List PKEntry}
    {sk : String} (hd : t.dry_run = true) :
    ∀ rs, (runRequests env t entries sk rs).fx = [] := by
  intro rs
  induction rs with
  | nil => rfl
  | cons req rest ih =>
    rw [runRequests]
    exact seq_fx_nil (processOne_fx_dry hd) ih

theorem unPackFile_fx_dry {t : Task} {env : PackEnv} (hd : t.dry_run = true) :
    (unPackFile t env).fx = [] := by
  cases ho : env.openArchive with
  | error e => simp [unPackFile, ho]
  | ok u =>
    cases hh : env.getHeader with
    | error e =>
      cases hm : env.checkMagic <;>
        simp [unPackFile, ho, hh, hm, Output.seq, Output.fail, Output.empty]
    | ok tr =>
      cases hel : env.getEntryList tr.file_list_base_addr with
      | error e =>
        cases hm : env.checkMagic <;>
          simp [unPackFile, ho, hh, hel, hm, Output.seq, Output.fail, Output.empty]
      | ok entries =>
        cases hm : env.checkMagic <;>
        · rw [unPackFile]
          simp only [ho, hh, hel, hm]
          exact seq_fx_nil (by rfl) (seq_fx_nil (runRequests_fx_dry hd _) rfl)

theorem runRequests_dry_stdout {env : PackEnv} {t : Task} {entries : List PKEntry}
    {sk : String} (hd : t.dry_run = true) (hs : sortedCrc entries)
    (hfd : ∀ e ∈ entries, env.fileData e = .ok ()) :
    ∀ rs, (runRequests env t entries sk rs).stdout =
        rs.filterMap (fun r =>
          if r.crc ∈ entries.map PKEntry.crc then some (pathJoin t.output r.path)
          else none) ∧
      (runRequests env t entries sk rs).err = none := by
  intro rs
  induction rs with
  | nil => exact ⟨rfl, rfl⟩
  | cons req rest ih =>
    rw [runRequests]
    by_cases hmem : req.crc ∈ entries.map PKEntry.crc
    · obtain ⟨j, hok, _⟩ := rustBinSearch_found hs hmem
      have hj : j < entries.length := (rustBinSearch_ok_sound hok).1
      have hfj : env.fileData (entries.getD j ⟨0, 0⟩) = .ok () :=
        hfd _ (getD_mem hj ⟨0, 0⟩)
      rw [List.getD_eq_getElem?_getD] at hfj
      have hpo : processOne env t entries sk req =
          ⟨if (entries.getD j ⟨0, 0⟩).is_compressed &&& 1 > 0 then
              [.debugCompressed req.path] else [],
            [pathJoin t.output req.path], [], none⟩ := by
        simp [processOne, hok, hfj, hd, List.getD_eq_getElem?_getD]
      rw [hpo, seq_of_err_none rfl]
      simp only [List.filterMap_cons, if_pos hmem]
      exact ⟨by simp [ih.1], ih.2⟩
    · obtain ⟨p, herr⟩ := rustBinSearch_not_found hmem
      have hpo : processOne env t entries sk req =
          ⟨[.warnNotFound req.path sk], [], [], none⟩ := by
        simp [processOne, herr]
      rw [hpo, seq_of_err_none rfl]
      simp only [List.filterMap_cons, if_neg hmem]
      exact ⟨by simp [ih.1], ih.2⟩

theorem processOne_archKey {env : PackEnv} {t : Task} {entries : List PKEntry}
    {sk : String} {req : Req} {e : LogEvent} {s : String}
    (hm : e ∈ (processOne env t entries sk req).logs)
    (hk : archKeyOf e = some s) : s = sk := by
  rw [processOne] at hm
  split at hm
  · rw [List.mem_singleton] at hm
    subst hm
    simp [archKeyOf] at hk
    exact hk.symm
  · simp only at hm
    split at hm
    · have := mem_dbg hm
      subst this
      simp [archKeyOf] at hk
    · split at hm
      · have := mem_dbg hm
        subst this
        simp [archKeyOf] at hk
      · split at hm
        · split at hm
          · have := mem_dbg hm
            subst this
            simp [archKeyOf] at hk
          · rw [writePhase] at hm
            split at hm
            · rcases List.mem_append.mp hm with h | h
              · have := mem_dbg h
                subst this
                simp [archKeyOf] at hk
              · rw [List.mem_singleton] at h
                subst h
                simp [archKeyOf] at hk
            · split at hm
              all_goals
                have := mem_dbg hm
                subst this
                simp [archKeyOf] at hk
        · rw [writePhase] at hm
          split at hm
          · rcases List.mem_append.mp hm with h | h
            · have := mem_dbg h
              subst this
              simp [archKeyOf] at hk
            · rw [List.mem_singleton] at h
              subst h
              simp [archKeyOf] at hk
          · split at hm
            all_goals
              have := mem_dbg hm
              subst this
              simp [archKeyOf] at hk

theorem runRequests_archKey {env : PackEnv} {t : Task} {entries : List PKEntry}
    {sk : String} {e : LogEvent} {s : String} :
    ∀ {rs}, e ∈ (runRequests env t entries sk rs).logs →
      archKeyOf e = some s → s = sk := by
  intro rs
  induction rs with
  | nil => intro hm _; cases hm
  | cons req rest ih =>
    intro hm hk
    rw [runRequests] at hm
    rcases seq_logs_sub hm with h | h
    · exact processOne_archKey h hk
    · exact ih h hk

theorem driverWrap_err (k : String) (o : Output) : (driverWrap k o).err = none := by
  cases h : o.err <;> simp [driverWrap, h]

theorem seq_err_of_none {a b : Output} (h : a.err = none) :
    (Output.seq a b).err = b.err := by
  rw [seq_of_err_none h]

theorem runBatches_err_none (envOf : String → PackEnv) (input out : String)
    (dry : Bool) (total : Nat) :
    ∀ bs i, (runBatches envOf input out dry total i bs).err = none := by
  intro bs
  induction bs with
  | nil => intro i; rfl
  | cons b rest ih =>
    intro i
    obtain ⟨key, fs⟩ := b
    rw [runBatches, seq_err_of_none (driverWrap_err _ _)]
    exact ih (i + 1)

theorem runBatches_concat (envOf : String → PackEnv) (input out : String)
    (dry : Bool) (total : Nat) :
    ∀ bs i, runBatches envOf input out dry total i bs =
      Output.concat ((bs.enumFrom i).map (fun p =>
        driverWrap p.2.1
          (unPackFile ⟨p.1 + 1, total, dry, out, p.2.1, archToPath input p.2.1, p.2.2⟩
            (envOf p.2.1)))) := by
  intro bs
  induction bs with
  | nil => intro i; rfl
  | cons b rest ih =>
    intro i
    obtain ⟨key, fs⟩ := b
    rw [runBatches]
    show _ = Output.concat (((i, (key, fs)) :: rest.enumFrom (i + 1)).map _)
    rw [List.map_cons, Output.concat, ih (i + 1)]

/-! Claim theorems. -/

/-- C2: the plan contains a request for a manifest entry exactly when the
filter accepts its path and the crc computed from the path is present in
the index mapping; each such request sits in the batch keyed by the
referenced archive path, in manifest order (the first conjunct gives every
batch as the ordered sub-list of accepted, resolved manifest entries, so
an entry whose crc the index lacks is silently absent); and the plan is
unchanged when the crc function is varied arbitrarily on filtered-out
paths, so no checksum is computed or looked up for them. -/
theorem c2_plan_membership (c : String → Nat) (g : String → Bool)
    (man : List (String × ManifestData)) (idx : PackIndexFile)
    (P : List (String × List Req)) (hP : plan c g man idx = some P) :
    (∀ k, (lookupA P k).getD [] = reqsFor c g idx man k) ∧
    (∀ c2 : String → Nat, (∀ p, g p = true → c2 p = c p) →
      plan c2 g man idx = some P) := by
  rw [plan] at hP
  constructor
  · intro k
    have h := @planAux_lookupA c g idx k man [] P List.Pairwise.nil hP
    simpa [lookupA] using h
  · intro c2 hcc
    rw [plan, planAux_crc_irrel hcc]
    exact hP

/-- Witness for C2 on a closed instance: the only batch of planW is
exactly the requests reqsFor computes for its key. -/
theorem c2_witness :
    (lookupA planW keyW).getD [] = reqsFor cLen gAll idxW manW keyW :=
  (c2_plan_membership cLen gAll manW idxW planW (by decide)).1 keyW

/-- C5: every batch of a successfully built plan is non-empty, and every
request of a batch has a crc the index maps to a reference naming exactly
the archive of that batch key. -/
theorem c5_batches_nonempty_resolved (c : String → Nat) (g : String → Bool)
    (man : List (String × ManifestData)) (idx : PackIndexFile)
    (P : List (String × List Req)) (hP : plan c g man idx = some P) :
    ∀ kv ∈ P, kv.2 ≠ [] ∧ ∀ r ∈ kv.2, resolves idx r kv.1 := by
  rw [plan] at hP
  exact planAux_good hP (fun kv h => absurd h (List.not_mem_nil kv))

/-- Witness for C5 on a closed instance: the batch of planW is non-empty
and its request resolves to the batch key. -/
theorem c5_witness :
    ([reqW] : List Req) ≠ [] ∧ resolves idxW reqW keyW := by
  have h := c5_batches_nonempty_resolved cLen gAll manW idxW planW (by decide)
    (keyW, [reqW]) (by simp [planW])
  exact ⟨h.1, h.2 reqW (by simp)⟩

/-- C9: the batch map of a successfully built plan keeps its archive keys
in strictly ascending (hence duplicate-free) order, so the driver
processes archives sorted by key; the planner is a pure function of the
manifest, index and filter, so two runs over identical inputs produce the
identical ordered plan. -/
theorem c9_plan_keys_sorted (c : String → Nat) (g : String → Bool)
    (man : List (String × ManifestData)) (idx : PackIndexFile)
    (P : List (String × List Req)) (hP : plan c g man idx = some P) :
    List.Sorted (fun a b : String => strLt a b = true) (P.map Prod.fst) ∧
      (P.map Prod.fst).Nodup := by
  rw [plan] at hP
  have hs : sortedAcc P := planAux_sorted hP List.Pairwise.nil
  have hsorted : List.Sorted (fun a b : String => strLt a b = true) (P.map Prod.fst) :=
    List.Pairwise.map Prod.fst (fun _ _ h => h) hs
  exact ⟨hsorted, List.Pairwise.imp (fun h => strLt_ne h) hsorted⟩

/-- Witness for C9 on a closed instance with two archives listed out of
order in the index: the plan keys come out strictly sorted. -/
theorem c9_witness :
    List.Sorted (fun a b : String => strLt a b = true) (planW2.map Prod.fst) :=
  (c9_plan_keys_sorted cLen gAll manW2 idxW2 planW2 (by decide)).1

/-- C4 is false as stated: for a filter file whose first line is an
invalid pattern, the program logs the diagnostic at error severity, not as
a warning, and the number it logs is the zero-based enumerate index 0,
not the line number 1 of the offending line. -/
theorem c4_counterexample :
    loadGlobsFrom (fun l => l != "[") 0 ["[", "*.txt"] =
      (["*.txt"], [.errorInvalidGlob "[" 0]) ∧
    LogEvent.level (.errorInvalidGlob "[" 0) ≠ Level.warn ∧
    (0 : Nat) ≠ 1 := by
  refine ⟨by decide, by decide, by decide⟩

/-- C4 (amended): for every non-blank, non-comment line that the glob
compiler rejects, the run logs one error-level message carrying the line
text and its zero-based index, excludes that pattern, and keeps exactly
the remaining valid patterns in order. -/
theorem c4_amended_glob_loop (v : String → Bool) :
    (∀ (ls : List String) (n : Nat),
      loadGlobsFrom v n ls =
        (ls.filter (fun l => globLineActive l && v l),
         (ls.enumFrom n).filterMap (fun p =>
           if globLineActive p.2 && !v p.2 then
             some (.errorInvalidGlob p.2 p.1)
           else none))) ∧
    (∀ (l : String) (k : Nat), LogEvent.level (.errorInvalidGlob l k) = .error) := by
  constructor
  · intro ls
    induction ls with
    | nil => intro n; rfl
    | cons l rest ih =>
      intro n
      simp only [loadGlobsFrom, ih (n + 1), List.enumFrom, List.filter_cons,
        List.filterMap_cons]
      by_cases hact : globLineActive l = true
      · by_cases hv : v l = true
        · simp [hact, hv]
        · simp only [Bool.not_eq_true] at hv
          simp [hact, hv]
      · simp only [Bool.not_eq_true] at hact
        simp [hact]
  · intro l k
    rfl

/-- C3 is false as stated: opening the manifest with a permission error,
which is not a file-not-found condition, is surfaced through the
could-not-find error variant anyway, so the file-not-found sub-kind is
not distinguished from a generic I/O error; and an unparsable index file
aborts by panic, outside the structured error type entirely. -/
theorem c3_counterexample :
    mainRun menvPerm =
      .fatal (.fileNotFound "in/versions/trunk.txt" permErr) ∧
    permErr.kind ≠ IOErrorKind.notFound ∧
    mainRun menvBadIdx = .panicked "invalid PKI" := by
  refine ⟨by decide, by decide, by decide⟩

/-- C3 (amended): a manifest file that cannot be opened aborts the run
before any extraction with the could-not-find error variant carrying the
path and the original cause, whatever the underlying error kind was; an
unparsable manifest or index aborts the run by panic; and a run only
reaches extraction when all three startup steps succeeded. -/
theorem c3_amended_startup (m : MainEnv) (hg : m.globLines = none) :
    (∀ e, m.trunkOpen = .error e →
        mainRun m = .fatal (.fileNotFound (trunkPathOf m) e) ∧
        UnpackError.chain (.fileNotFound (trunkPathOf m) e) =
          ["could not find " ++ trunkPathOf m, e.msg]) ∧
    (∀ s, m.trunkOpen = .ok () → m.manifestLoad = .error s →
        mainRun m = .panicked s) ∧
    (∀ man s, m.trunkOpen = .ok () → m.manifestLoad = .ok man →
        m.indexLoad = .error s → mainRun m = .panicked s) ∧
    (∀ o, mainRun m = .completed o →
        m.trunkOpen = .ok () ∧ (∃ man, m.manifestLoad = .ok man) ∧
        (∃ idx, m.indexLoad = .ok idx)) := by
  have hm2 : mainRun m = mainRun2 m (["**"], []) := by
    rw [mainRun, hg]
  refine ⟨?_, ?_, ?_, ?_⟩
  · intro e he
    rw [hm2]
    exact ⟨by simp [mainRun2, he], rfl⟩
  · intro s ht hman
    rw [hm2]
    simp [mainRun2, ht, hman]
  · intro man s ht hman hidx
    rw [hm2]
    simp [mainRun2, ht, hman, hidx]
  · intro o h
    rw [hm2] at h
    cases ht : m.trunkOpen with
    | error e => simp [mainRun2, ht] at h
    | ok u =>
      cases u
      cases hman : m.manifestLoad with
      | error s => simp [mainRun2, ht, hman] at h
      | ok man =>
        cases hidx : m.indexLoad with
        | error s => simp [mainRun2, ht, hman, hidx] at h
        | ok idx => exact ⟨rfl, ⟨man, rfl⟩, ⟨idx, rfl⟩⟩

/-- Witness for the amended C3 on a closed instance: an unparsable
manifest panics with its message. -/
theorem c3_witness : mainRun menvBadMan = .panicked "bad manifest" :=
  (c3_amended_startup menvBadMan rfl).2.1 "bad manifest" rfl rfl

theorem charsPfx_iff : ∀ (as bs : List Char), charsPfx as bs = true ↔ as <+: bs
  | [], bs => by simp [charsPfx]
  | a :: as, [] => by
    rw [charsPfx]
    constructor
    · intro h
      exact absurd h (by simp)
    · intro h
      have hlen := h.length_le
      simp at hlen
  | a :: as, b :: bs => by
    rw [charsPfx]
    by_cases hab : a = b
    · subst hab
      rw [if_pos rfl, charsPfx_iff as bs]
      exact ⟨fun h => List.cons_prefix_cons.mpr ⟨rfl, h⟩,
        fun h => (List.cons_prefix_cons.mp h).2⟩
    · rw [if_neg hab]
      constructor
      · intro h
        exact absurd h (by simp)
      · intro h
        exact absurd (List.cons_prefix_cons.mp h).1 hab

/-- C7: a batch whose archive file cannot be opened produces exactly one
log line, a warn-level line carrying the shortened display key, no stdout
line, no filesystem effect, and the early successful return; and the
driver then continues with the remaining batches. -/
theorem c7_unopenable_archive (t : Task) (env : PackEnv) (e : IOError)
    (h : env.openArchive = .error e) :
    unPackFile t env = ⟨[.warnOpenFailed (shortKeyFn t.pk_key)], [], [], none⟩ ∧
    LogEvent.level (.warnOpenFailed (shortKeyFn t.pk_key)) = .warn ∧
    (∀ (envOf : String → PackEnv) (input out : String) (dry : Bool)
       (total i : Nat) (key : String) (fs : List Req)
       (rest : List (String × List Req)), envOf key = env →
      runBatches envOf input out dry total i ((key, fs) :: rest) =
        Output.seq ⟨[.warnOpenFailed (shortKeyFn key)], [], [], none⟩
          (runBatches envOf input out dry total (i + 1) rest)) := by
  refine ⟨by simp [unPackFile, h], rfl, ?_⟩
  intro envOf input out dry total i key fs rest henv
  rw [runBatches]
  have hu : unPackFile ⟨i + 1, total, dry, out, key, archToPath input key, fs⟩
      (envOf key) = ⟨[.warnOpenFailed (shortKeyFn key)], [], [], none⟩ := by
    rw [henv]
    simp [unPackFile, h]
  rw [hu]
  rfl

/-- Witness for C7 on a closed instance. -/
theorem c7_witness :
    unPackFile taskOF envOpenFail =
      ⟨[.warnOpenFailed (shortKeyFn taskOF.pk_key)], [], [], none⟩ :=
  (c7_unopenable_archive taskOF envOpenFail ⟨.notFound, "no such file"⟩ rfl).1

/-- C8: the extractor locates entries by the Rust binary search over the
entry directory (a crc absent from the directory is never found, and on a
checksum-sorted directory a present crc always is); and a request whose
crc is absent from the directory produces exactly one warning naming the
relative path and the short key, after which processing continues with
the remaining requests of the same archive. -/
theorem c8_missing_entry :
    (∀ (xs : List PKEntry) (key : Nat), key ∉ xs.map PKEntry.crc →
      ∃ p, rustBinSearch xs key = .error p) ∧
    (∀ (xs : List PKEntry) (key : Nat), sortedCrc xs →
      key ∈ xs.map PKEntry.crc →
      ∃ j, rustBinSearch xs key = .ok j ∧ crcAt xs j = key) ∧
    (∀ (env : PackEnv) (t : Task) (entries : List PKEntry) (req : Req)
       (rest : List Req), req.crc ∉ entries.map PKEntry.crc →
      runRequests env t entries (shortKeyFn t.pk_key) (req :: rest) =
        Output.seq ⟨[.warnNotFound req.path (shortKeyFn t.pk_key)], [], [], none⟩
          (runRequests env t entries (shortKeyFn t.pk_key) rest)) := by
  refine ⟨fun xs key h => rustBinSearch_not_found h,
    fun xs key hs h => rustBinSearch_found hs h, ?_⟩
  intro env t entries req rest h
  obtain ⟨p, hp⟩ := rustBinSearch_not_found h
  rw [runRequests]
  have hpo : processOne env t entries (shortKeyFn t.pk_key) req =
      ⟨[.warnNotFound req.path (shortKeyFn t.pk_key)], [], [], none⟩ := by
    simp [processOne, hp]
  rw [hpo]

/-- Witness for C8 on a closed instance: crc 9 is not in the directory. -/
theorem c8_witness :
    runRequests envAllOk taskDry entriesTwo (shortKeyFn taskDry.pk_key)
        [⟨9, "z", 1, 1⟩] =
      Output.seq
        ⟨[.warnNotFound "z" (shortKeyFn taskDry.pk_key)], [], [], none⟩
        (runRequests envAllOk taskDry entriesTwo (shortKeyFn taskDry.pk_key) []) :=
  c8_missing_entry.2.2 envAllOk taskDry entriesTwo ⟨9, "z", 1, 1⟩ [] (by decide)

/-- C10: the shortened display key is the archive key with the literal
pack prefix removed exactly when the key starts with that prefix and is
the unmodified key otherwise; and every log line of un_pack_file that
displays an archive key (the open-failure warning, magic-check error,
missing-entry warning and progress summary) displays exactly this
shortened key. -/
theorem c10_short_display_key :
    (∀ k : String,
      (packKeyPfx.data <+: k.data → shortKeyFn k = k.drop packKeyPfx.length) ∧
      (¬ packKeyPfx.data <+: k.data → shortKeyFn k = k)) ∧
    (∀ (t : Task) (env : PackEnv) (e : LogEvent) (s : String),
      e ∈ (unPackFile t env).logs → archKeyOf e = some s →
      s = shortKeyFn t.pk_key) := by
  constructor
  · intro k
    constructor
    · intro h
      simp [shortKeyFn, rustStripPfx, (charsPfx_iff _ _).mpr h]
    · intro h
      have hb : charsPfx packKeyPfx.data k.data = false := by
        rcases Bool.eq_false_or_eq_true (charsPfx packKeyPfx.data k.data) with
          hb | hb
        · exact absurd ((charsPfx_iff _ _).mp hb) h
        · exact hb
      simp [shortKeyFn, rustStripPfx, hb]
  · intro t env e s hm hk
    cases ho : env.openArchive with
    | error e2 =>
      simp only [unPackFile, ho] at hm
      rw [List.mem_singleton] at hm
      subst hm
      simp [archKeyOf] at hk
      exact hk.symm
    | ok u =>
      simp only [unPackFile, ho] at hm
      rcases seq_logs_sub hm with h | h
      · cases hmg : env.checkMagic with
        | error msg =>
          simp only [hmg] at h
          rw [List.mem_singleton] at h
          subst h
          simp [archKeyOf] at hk
          exact hk.symm
        | ok u2 =>
          simp only [hmg] at h
          simp [Output.empty] at h
      · cases hh : env.getHeader with
        | error e2 =>
          simp only [hh] at h
          simp [Output.fail] at h
        | ok tr =>
          simp only [hh] at h
          cases hel : env.getEntryList tr.file_list_base_addr with
          | error e2 =>
            simp only [hel] at h
            simp [Output.fail] at h
          | ok entries =>
            simp only [hel] at h
            rcases seq_logs_sub h with h2 | h2
            · exact runRequests_archKey h2 hk
            · rw [List.mem_singleton] at h2
              subst h2
              simp [archKeyOf] at hk
              exact hk.symm

/-- Witness for C10 on a closed instance: the prefixed key is displayed
shortened in the open-failure warning. -/
theorem c10_witness : "x.pk" = shortKeyFn taskOF.pk_key :=
  c10_short_display_key.2 taskOF envOpenFail (.warnOpenFailed "x.pk") "x.pk"
    (by decide) rfl

/-- C6 is false as stated: in dry-run mode, when the payload stream of
the first request fails to open, the extractor returns that error and
emits no output line even for the second request, whose checksum is
present in the entry directory — so a found request does not always get
its line.  No filesystem effect occurs, as the claim says. -/
theorem c6_counterexample :
    (unPackFile taskDry envStreamFail).stdout = [] ∧
    (unPackFile taskDry envStreamFail).err = some ⟨.other, "stream"⟩ ∧
    (7 : Nat) ∈ entriesTwo.map PKEntry.crc ∧
    (unPackFile taskDry envStreamFail).fx = [] := by
  refine ⟨by decide, by decide, by decide, by decide⟩

/-- C6 (amended): with the dry-run switch active the extractor performs
no filesystem effect whatsoever; and provided the archive opens, its
header and sorted entry directory read correctly and every payload stream
opens, it prints exactly one line, the joined destination path, for each
request whose crc is found in the directory, in request order. -/
theorem c6_amended_dry_run :
    (∀ (t : Task) (env : PackEnv), t.dry_run = true →
      (unPackFile t env).fx = []) ∧
    (∀ (t : Task) (env : PackEnv) (tr : Trailer) (entries : List PKEntry),
      t.dry_run = true → env.openArchive = .ok () →
      env.getHeader = .ok tr →
      env.getEntryList tr.file_list_base_addr = .ok entries →
      sortedCrc entries → (∀ e ∈ entries, env.fileData e = .ok ()) →
      (unPackFile t env).stdout =
        t.files.filterMap (fun r =>
          if r.crc ∈ entries.map PKEntry.crc then
            some (pathJoin t.output r.path)
          else none)) := by
  refine ⟨fun t env hd => unPackFile_fx_dry hd, ?_⟩
  intro t env tr entries hd ho hh hel hs hfd
  obtain ⟨hstdout, herr⟩ :=
    @runRequests_dry_stdout env t entries (shortKeyFn t.pk_key) hd hs hfd t.files
  rw [unPackFile]
  simp only [ho, hh, hel]
  cases hmg : env.checkMagic with
  | error msg =>
    rw [seq_of_err_none rfl, seq_of_err_none herr]
    simpa using hstdout
  | ok u =>
    rw [seq_of_err_none rfl, seq_of_err_none herr]
    simpa using hstdout

/-- Witness for the amended C6 on a closed instance: both requests are
found and each yields one line, in order. -/
theorem c6_witness :
    (unPackFile taskDry envAllOk).stdout =
      taskDry.files.filterMap (fun r =>
        if r.crc ∈ entriesTwo.map PKEntry.crc then
          some (pathJoin taskDry.output r.path)
        else none) :=
  c6_amended_dry_run.2 taskDry envAllOk ⟨0⟩ entriesTwo rfl rfl rfl rfl
    (by constructor
        · intro b hb
          simp [entriesTwo] at hb
          subst hb
          decide
        · constructor
          · intro b hb
            simp at hb
          · exact List.Pairwise.nil)
    (fun e _ => rfl)

/-- C1 is false as stated: with dry-run off, a parent directory that
cannot be created is neither handled by continuing at the next request
nor the early successful open-failure return — the whole batch aborts
with the error, leaving the second request unprocessed even though its
checksum is present in the directory.  (The driver then logs the error
and continues with later batches.) -/
theorem c1_counterexample :
    unPackFile taskWet envDirFail = ⟨[], [], [], some ⟨.other, "dir"⟩⟩ ∧
    rustBinSearch entriesTwo 7 = .ok 1 := by
  refine ⟨by decide, rfl⟩

/-- C1 (amended): failure routing of the extractor.  A request whose
processing returns no error is followed by the remaining requests of the
batch with all output accumulated; a destination file that cannot be
created is logged and returns no error, so processing continues; a
payload stream that fails to open aborts the remaining requests of the
batch, returning the error; and the driver processes every batch of the
list regardless of per-batch errors (logging them) and itself never
returns an error, so no failure aborts the remaining batches. -/
theorem c1_amended_failure_routing :
    (∀ (env : PackEnv) (t : Task) (entries : List PKEntry) (sk : String)
       (req : Req) (rest : List Req),
      (processOne env t entries sk req).err = none →
      runRequests env t entries sk (req :: rest) =
        ⟨(processOne env t entries sk req).logs ++
            (runRequests env t entries sk rest).logs,
          (processOne env t entries sk req).stdout ++
            (runRequests env t entries sk rest).stdout,
          (processOne env t entries sk req).fx ++
            (runRequests env t entries sk rest).fx,
          (runRequests env t entries sk rest).err⟩) ∧
    (∀ (env : PackEnv) (t : Task) (entries : List PKEntry) (sk : String)
       (req : Req) (j : Nat) (e : IOError), t.dry_run = false →
      rustBinSearch entries req.crc = .ok j →
      env.fileData (entries.getD j ⟨0, 0⟩) = .ok () →
      (∀ par, parentOf (pathJoin t.output req.path) = some par →
        env.createDir par = .ok ()) →
      env.createFile (pathJoin t.output req.path) = .error e →
      (processOne env t entries sk req).err = none ∧
        LogEvent.errorWriteFailed (pathJoin t.output req.path) e ∈
          (processOne env t entries sk req).logs) ∧
    (∀ (env : PackEnv) (t : Task) (entries : List PKEntry) (sk : String)
       (req : Req) (rest : List Req) (j : Nat) (e : IOError),
      rustBinSearch entries req.crc = .ok j →
      env.fileData (entries.getD j ⟨0, 0⟩) = .error e →
      runRequests env t entries sk (req :: rest) =
          processOne env t entries sk req ∧
        (processOne env t entries sk req).err = some e) ∧
    (∀ (envOf : String → PackEnv) (input out : String) (dry : Bool)
       (total i : Nat) (bs : List (String × List Req)),
      runBatches envOf input out dry total i bs =
        Output.concat ((bs.enumFrom i).map (fun p =>
          driverWrap p.2.1
            (unPackFile
              ⟨p.1 + 1, total, dry, out, p.2.1, archToPath input p.2.1, p.2.2⟩
              (envOf p.2.1)))) ∧
      (runBatches envOf input out dry total i bs).err = none) := by
  refine ⟨?_, ?_, ?_, ?_⟩
  · intro env t entries sk req rest h
    rw [runRequests, seq_of_err_none h]
  · intro env t entries sk req j e hdry hok hfd hdir hcf
    rw [List.getD_eq_getElem?_getD] at hfd
    cases hp : parentOf (pathJoin t.output req.path) with
    | none =>
      constructor <;>
        simp [processOne, hok, hfd, hdry, hp, writePhase, hcf,
          List.getD_eq_getElem?_getD]
    | some par =>
      have hcd := hdir par hp
      constructor <;>
        simp [processOne, hok, hfd, hdry, hp, hcd, writePhase, hcf,
          List.getD_eq_getElem?_getD]
  · intro env t entries sk req rest j e hok hfd
    rw [List.getD_eq_getElem?_getD] at hfd
    have hpo : processOne env t entries sk req =
        ⟨if (entries.getD j ⟨0, 0⟩).is_compressed &&& 1 > 0 then
            [.debugCompressed req.path] else [],
          [], [], some e⟩ := by
      simp [processOne, hok, hfd, List.getD_eq_getElem?_getD]
    refine ⟨?_, by rw [hpo]⟩
    have herr2 : (processOne env t entries sk req).err = some e := by rw [hpo]
    rw [runRequests, seq_of_err_some herr2]
  · intro envOf input out dry total i bs
    exact ⟨runBatches_concat envOf input out dry total bs i,
      runBatches_err_none envOf input out dry total bs i⟩

/-- Witness for the amended C1 on a closed instance: an uncreatable
destination file is logged and returns no error. -/
theorem c1_witness :
    (processOne envCreateFail taskWet entriesTwo "x.pk" reqA).err = none ∧
      LogEvent.errorWriteFailed (pathJoin taskWet.output reqA.path)
          ⟨.other, "denied"⟩ ∈
        (processOne envCreateFail taskWet entriesTwo "x.pk" reqA).logs :=
  c1_amended_failure_routing.2.1 envCreateFail taskWet entriesTwo "x.pk" reqA 0
    ⟨.other, "denied"⟩ rfl rfl rfl (fun _ _ => rfl) rfl

end LUnpack
